import Mathlib

/-!
Verification of the LSTM price-prediction pipeline: min-max scaling,
technical indicators, sliding-window construction, the walk-forward
training loop, and autoregressive multi-day forecasting.  Machine floats
are modelled by exact rationals; a pandas or numpy series is a Lean list.
-/

namespace BtcPred

/-- sklearn `MinMaxScaler` with the default feature range (0, 1): the fitted
scale of a column whose data minimum is `mn` and data maximum is `mx`; a zero
data range is replaced by 1, following sklearn's handle-zeros rule. -/
def mmScale (mn mx : ℚ) : ℚ := 1 / (if mx - mn = 0 then 1 else mx - mn)

/-- sklearn `MinMaxScaler` fitted offset: `min_ = 0 - data_min * scale_`. -/
def mmMin (mn mx : ℚ) : ℚ := 0 - mn * mmScale mn mx

/-- `MinMaxScaler.transform` on one value of the column: `x * scale_ + min_`. -/
def mmTransform (mn mx x : ℚ) : ℚ := x * mmScale mn mx + mmMin mn mx

/-- `MinMaxScaler.inverse_transform` on one value: `(y - min_) / scale_`. -/
def mmInverse (mn mx y : ℚ) : ℚ := (y - mmMin mn mx) / mmScale mn mx

/-- C5: for a min-max scaler fitted on a column with `mn < mx`,
inverse-transforming the transform of any `x` inside the fitted range gives
back `x`, exactly over the rationals; in particular a scaler fitted with
min 10 and max 20 sends 15 to 1/2 and sends 1/2 back to 15. -/
theorem mm_round_trip (mn mx x : ℚ) (h : mn < mx) (_hx1 : mn ≤ x) (_hx2 : x ≤ mx) :
    mmInverse mn mx (mmTransform mn mx x) = x ∧
    mmTransform 10 20 15 = 1 / 2 ∧ mmInverse 10 20 (1 / 2) = 15 := by
  have hne : mx - mn ≠ 0 := sub_ne_zero.mpr (ne_of_gt h)
  refine ⟨?_, by norm_num [mmTransform, mmInverse, mmScale, mmMin],
    by norm_num [mmTransform, mmInverse, mmScale, mmMin]⟩
  simp only [mmInverse, mmTransform, mmScale, mmMin, if_neg hne]
  field_simp

/-- Witness for C5 at the scaler fitted with min 10, max 20, and x = 15. -/
theorem mm_round_trip_witness :
    mmInverse 10 20 (mmTransform 10 20 15) = 15 ∧
    mmTransform 10 20 15 = 1 / 2 ∧ mmInverse 10 20 (1 / 2) = 15 :=
  mm_round_trip 10 20 15 (by norm_num) (by norm_num) (by norm_num)

/-- `ModelTrainer.create_windowed_data` (train.py and train_model.py): for
each `i` in `range(steps, len(data))` it collects the window
`data[i - steps : i]` and the label `data[i][target_index]`.  A dataframe
row is a list of rationals. -/
def create_windowed_data (df : List (List ℚ)) (steps targetIdx : ℕ) :
    List (List (List ℚ)) × List ℚ :=
  ((List.range' steps (df.length - steps)).map fun i => (df.drop (i - steps)).take steps,
   (List.range' steps (df.length - steps)).map fun i => (df.getD i []).getD targetIdx 0)

/-- C2: windowing produces exactly `max 0 (L - steps)` pairs in row order;
the j-th window is rows `j .. j + steps - 1` (length `steps`) and its label
is the target-column entry of row `j + steps`; no windows when `L ≤ steps`. -/
theorem create_windowed_data_spec (df : List (List ℚ)) (steps targetIdx : ℕ) :
    (create_windowed_data df steps targetIdx).1.length = df.length - steps ∧
    (create_windowed_data df steps targetIdx).2.length = df.length - steps ∧
    (df.length ≤ steps → (create_windowed_data df steps targetIdx).1 = [] ∧
      (create_windowed_data df steps targetIdx).2 = []) ∧
    ∀ j, j < df.length - steps →
      (create_windowed_data df steps targetIdx).1.getD j [] = (df.drop j).take steps ∧
      ((create_windowed_data df steps targetIdx).1.getD j []).length = steps ∧
      (create_windowed_data df steps targetIdx).2.getD j 0 =
        (df.getD (j + steps) []).getD targetIdx 0 := by
  refine ⟨by simp [create_windowed_data], by simp [create_windowed_data], ?_, ?_⟩
  · intro hle
    have hz : df.length - steps = 0 := Nat.sub_eq_zero_of_le hle
    simp [create_windowed_data, hz]
  · intro j hj
    have hx : (create_windowed_data df steps targetIdx).1.getD j [] =
        (df.drop j).take steps := by
      rw [List.getD_eq_getElem?_getD]
      simp only [create_windowed_data, List.getElem?_map,
        List.getElem?_range' _ _ hj, Option.map_some', Option.getD_some,
        one_mul, Nat.add_sub_cancel_left]
    have hlen : ((df.drop j).take steps).length = steps := by
      simp only [List.length_take, List.length_drop]
      omega
    refine ⟨hx, by rw [hx]; exact hlen, ?_⟩
    rw [List.getD_eq_getElem?_getD]
    simp only [create_windowed_data, List.getElem?_map,
      List.getElem?_range' _ _ hj, Option.map_some', Option.getD_some,
      one_mul, Nat.add_comm steps j]

/-- pandas `Series.diff()` without its leading NaN entry: the consecutive
differences of the price series. -/
def diffSeries (prices : List ℚ) : List ℚ := List.zipWith (· - ·) prices.tail prices

/-- `deltas.where(deltas > 0, 0)` in `calculate_rsi`: the gain component of
each delta; the leading NaN delta compares false and becomes 0. -/
def gainSeries (prices : List ℚ) : List ℚ :=
  if prices = [] then []
  else 0 :: (diffSeries prices).map fun d => if 0 < d then d else 0

/-- `deltas.where(deltas < 0, 0)` in `calculate_rsi`: the (nonpositive) loss
component of each delta; the leading NaN delta becomes 0. -/
def lossSeries (prices : List ℚ) : List ℚ :=
  if prices = [] then []
  else 0 :: (diffSeries prices).map fun d => if d < 0 then d else 0

/-- `Series.rolling(window := n, min_periods := 1).mean()`: at index `i`, the
arithmetic mean of the last `min n (i + 1)` entries up to and including `i`. -/
def rollingMean1 (n : ℕ) (l : List ℚ) : List ℚ :=
  (List.range l.length).map fun i =>
    let w := (l.take (i + 1)).drop (i + 1 - n)
    w.sum / (w.length : ℚ)

/-- The epsilon substituted for a zero loss average in `calculate_rsi`: 1e-10. -/
def epsRSI : ℚ := 1 / 10 ^ 10

/-- `Series.replace(0, eps)` applied to one value. -/
def replaceZero (eps x : ℚ) : ℚ := if x = 0 then eps else x

/-- The `rs` series of `calculate_rsi`: rolling average gain divided by the
negated rolling average loss, whose zeros were replaced by 1e-10. -/
def rsSeries (n : ℕ) (prices : List ℚ) : List ℚ :=
  List.zipWith (fun g l => g / replaceZero epsRSI l)
    (rollingMean1 n (gainSeries prices))
    ((rollingMean1 n (lossSeries prices)).map Neg.neg)

/-- `calculate_rsi` from data_preparation.py: `100 - 100 / (1 + rs)`. -/
def calculate_rsi (prices : List ℚ) (n : ℕ := 14) : List ℚ :=
  (rsSeries n prices).map fun rs => 100 - 100 / (1 + rs)

lemma exists_of_mem_zipWith {α β γ : Type} {f : α → β → γ} :
    ∀ {l₁ : List α} {l₂ : List β} {c : γ}, c ∈ List.zipWith f l₁ l₂ →
      ∃ a ∈ l₁, ∃ b ∈ l₂, c = f a b := by
  intro l₁
  induction l₁ with
  | nil => intro l₂ c hc; simp at hc
  | cons a t ih =>
    intro l₂ c hc
    cases l₂ with
    | nil => simp at hc
    | cons b t₂ =>
      simp only [List.zipWith_cons_cons, List.mem_cons] at hc
      rcases hc with rfl | hc
      · exact ⟨a, by simp, b, by simp, rfl⟩
      · obtain ⟨x, hx, y, hy, rfl⟩ := ih hc
        exact ⟨x, by simp [hx], y, by simp [hy], rfl⟩

lemma gainSeries_nonneg (prices : List ℚ) : ∀ x ∈ gainSeries prices, 0 ≤ x := by
  intro x hx
  unfold gainSeries at hx
  split at hx
  · simp at hx
  · rcases List.mem_cons.mp hx with rfl | hx
    · exact le_refl 0
    · obtain ⟨d, _, rfl⟩ := List.mem_map.mp hx
      split <;> [linarith; exact le_refl 0]

lemma lossSeries_nonpos (prices : List ℚ) : ∀ x ∈ lossSeries prices, x ≤ 0 := by
  intro x hx
  unfold lossSeries at hx
  split at hx
  · simp at hx
  · rcases List.mem_cons.mp hx with rfl | hx
    · exact le_refl 0
    · obtain ⟨d, _, rfl⟩ := List.mem_map.mp hx
      split <;> [linarith; exact le_refl 0]

lemma rollingMean1_nonneg (n : ℕ) (l : List ℚ) (h : ∀ x ∈ l, 0 ≤ x) :
    ∀ y ∈ rollingMean1 n l, 0 ≤ y := by
  intro y hy
  simp only [rollingMean1, List.mem_map, List.mem_range] at hy
  obtain ⟨i, _, rfl⟩ := hy
  refine div_nonneg (List.sum_nonneg fun x hx => ?_) (Nat.cast_nonneg _)
  exact h x (List.mem_of_mem_take (List.mem_of_mem_drop hx))

lemma list_sum_nonpos : ∀ (l : List ℚ), (∀ x ∈ l, x ≤ 0) → l.sum ≤ 0
  | [], _ => by simp
  | x :: t, h => by
    have ht := list_sum_nonpos t fun y hy => h y (List.mem_cons_of_mem _ hy)
    have hx := h x (List.mem_cons_self x t)
    simp only [List.sum_cons]
    linarith

lemma rollingMean1_nonpos (n : ℕ) (l : List ℚ) (h : ∀ x ∈ l, x ≤ 0) :
    ∀ y ∈ rollingMean1 n l, y ≤ 0 := by
  intro y hy
  simp only [rollingMean1, List.mem_map, List.mem_range] at hy
  obtain ⟨i, _, rfl⟩ := hy
  refine div_nonpos_of_nonpos_of_nonneg (list_sum_nonpos _ fun x hx => ?_)
    (Nat.cast_nonneg _)
  exact h x (List.mem_of_mem_take (List.mem_of_mem_drop hx))

/-- Every denominator fed to the RSI division is strictly positive. -/
lemma lossDenom_pos (n : ℕ) (prices : List ℚ) :
    ∀ l ∈ (rollingMean1 n (lossSeries prices)).map Neg.neg,
      0 < replaceZero epsRSI l := by
  intro l hl
  obtain ⟨l0, hl0, rfl⟩ := List.mem_map.mp hl
  have hle : l0 ≤ 0 := rollingMean1_nonpos n _ (lossSeries_nonpos prices) l0 hl0
  unfold replaceZero
  split
  · norm_num [epsRSI]
  · rename_i hz
    have : (0 : ℚ) ≤ -l0 := by linarith
    rcases lt_or_eq_of_le this with hlt | heq
    · exact hlt
    · exact absurd heq.symm hz

/-- Every element of the `rs` series is nonnegative. -/
lemma rsSeries_nonneg (n : ℕ) (prices : List ℚ) :
    ∀ rs ∈ rsSeries n prices, 0 ≤ rs := by
  intro rs hrs
  obtain ⟨g, hg, l, hl, rfl⟩ := exists_of_mem_zipWith hrs
  exact div_nonneg (rollingMean1_nonneg n _ (gainSeries_nonneg prices) g hg)
    (lossDenom_pos n prices l hl).le

/-- C6: every RSI value produced by `calculate_rsi` on a finite, non-constant
price series lies in the closed interval [0, 100]. -/
theorem calculate_rsi_bounds (prices : List ℚ)
    (_hnc : ∃ a ∈ prices, ∃ b ∈ prices, a ≠ b) :
    ∀ v ∈ calculate_rsi prices 14, 0 ≤ v ∧ v ≤ 100 := by
  intro v hv
  simp only [calculate_rsi, List.mem_map] at hv
  obtain ⟨rs, hrs, rfl⟩ := hv
  have h0 : 0 ≤ rs := rsSeries_nonneg 14 prices rs hrs
  have hpos : (0 : ℚ) < 1 + rs := by linarith
  have h1 : 100 / (1 + rs) ≤ 100 := by
    rw [div_le_iff₀ hpos]
    nlinarith
  have h2 : 0 < 100 / (1 + rs) := by positivity
  constructor <;> linarith

lemma getD_mem_of_lt {α : Type} {l : List α} {n : ℕ} (h : n < l.length)
    (d : α) : l.getD n d ∈ l := by
  rw [List.getD_eq_getElem?_getD, List.getElem?_eq_getElem h]
  exact List.getElem_mem h

lemma length_calculate_rsi_example : (calculate_rsi [1, 2, 1] 14).length = 3 := by
  simp [calculate_rsi, rsSeries, rollingMean1, gainSeries, lossSeries, diffSeries]

/-- Witness for C6 on the non-constant series [1, 2, 1], at its last RSI
value. -/
theorem calculate_rsi_bounds_witness :
    0 ≤ (calculate_rsi [1, 2, 1] 14).getD 2 0 ∧
      (calculate_rsi [1, 2, 1] 14).getD 2 0 ≤ 100 :=
  calculate_rsi_bounds [1, 2, 1] ⟨1, by simp, 2, by simp, by norm_num⟩ _
    (getD_mem_of_lt (by rw [length_calculate_rsi_example]; omega) 0)

/-- C8: the division forming the RSI gain/loss ratio always has a strictly
positive denominator: each zero loss average is replaced by the positive
epsilon 1e-10 before dividing, so `calculate_rsi` never divides by zero. -/
theorem rsi_denominator_pos (prices : List ℚ) :
    ∀ l ∈ (rollingMean1 14 (lossSeries prices)).map Neg.neg,
      0 < replaceZero epsRSI l :=
  lossDenom_pos 14 prices

lemma length_lossDenoms_example :
    ((rollingMean1 14 (lossSeries [1, 2, 1])).map Neg.neg).length = 3 := by
  simp [rollingMean1, lossSeries, diffSeries]

/-- Witness for C8 on the series [1, 2, 1], at the last loss average. -/
theorem rsi_denominator_pos_witness :
    0 < replaceZero epsRSI
        (((rollingMean1 14 (lossSeries [1, 2, 1])).map Neg.neg).getD 2 0) :=
  rsi_denominator_pos [1, 2, 1] _
    (getD_mem_of_lt (by rw [length_lossDenoms_example]; omega) 0)

/-- numpy `arr[-n:]` for `n ≥ 1`: the last `n` rows of the buffer. -/
def lastN {α : Type} (n : ℕ) (l : List α) : List α := l.drop (l.length - n)

/-- `predict_price` from predict.py: the model's scaled prediction on the
window, sent through the scaler inverse (`inverse_transform(...)[0, 0]`,
modelled as a function applied to the single predicted value). -/
def predict_price (model : List (List ℚ) → ℚ) (invTr : ℚ → ℚ)
    (data : List (List ℚ)) : ℚ := invTr (model data)

/-- `np.append(input_data[-1, 1:], predicted_price)` in `predict_next_days`:
the synthetic row appended after each step is the previous last row with its
first entry dropped (every feature shifts left one slot) and the
inverse-transformed prediction appended at the end. -/
def syntheticRow (lastRow : List ℚ) (p : ℚ) : List ℚ := lastRow.drop 1 ++ [p]

/-- One iteration of the `predict_next_days` loop: predict on the last
`timesteps` rows, then extend the buffer with the synthetic row. -/
def forecastStep (model : List (List ℚ) → ℚ) (invTr : ℚ → ℚ) (timesteps : ℕ)
    (data : List (List ℚ)) : ℚ × List (List ℚ) :=
  let p := predict_price model invTr (lastN timesteps data)
  (p, data ++ [syntheticRow (data.getLastD []) p])

/-- `predict_next_days` from predict.py: `days` iterations of the loop,
collecting the (inverse-transformed) predictions in order. -/
def predict_next_days (model : List (List ℚ) → ℚ) (invTr : ℚ → ℚ)
    (timesteps : ℕ) : ℕ → List (List ℚ) → List ℚ
  | 0, _ => []
  | days + 1, data =>
    (forecastStep model invTr timesteps data).1 ::
      predict_next_days model invTr timesteps days
        (forecastStep model invTr timesteps data).2

/-- The synthetic row as the spec describes it: the previous last row with
only the target-column slot replaced by the scaled prediction. -/
def specSyntheticRow (lastRow : List ℚ) (targetIdx : ℕ) (scaledPred : ℚ) :
    List ℚ := lastRow.set targetIdx scaledPred

/-- C1 exhibit: with a model that always predicts the scaled value 1/2, a
scaler inverse mapping y to 10 y, window length 2 and seed [[1, 2], [3, 4]],
one loop iteration appends the synthetic row [4, 5]: the first feature is
dropped and every remaining feature shifts left one slot, and the appended
target value is the inverse-transformed price 5, not the scaled prediction
1/2 - unlike the carried-forward row [3, 1/2] the claim describes (even
reading the target slot as the appended last slot). -/
theorem predict_next_days_feedback_bug :
    (forecastStep (fun _ => (1 : ℚ) / 2) (fun y => 10 * y) 2 [[1, 2], [3, 4]]).2
        = [[1, 2], [3, 4], [4, 5]] ∧
    lastN 2 (forecastStep (fun _ => (1 : ℚ) / 2) (fun y => 10 * y) 2
        [[1, 2], [3, 4]]).2 = [[3, 4], [4, 5]] ∧
    specSyntheticRow [3, 4] 1
        ((fun _ : List (List ℚ) => (1 : ℚ) / 2) [[1, 2], [3, 4]]) = [3, 1 / 2] ∧
    ([[3, 4], [4, 5]] : List (List ℚ)) ≠ [[3, 4], [3, 1 / 2]] := by
  refine ⟨?_, ?_, ?_, ?_⟩
  · simp [forecastStep, predict_price, lastN, syntheticRow]
    norm_num
  · simp [forecastStep, predict_price, lastN, syntheticRow]
    norm_num
  · simp [specSyntheticRow]
  · simp only [ne_eq, List.cons.injEq, and_true, true_and]
    intro hcon
    exact absurd hcon.1 (by norm_num)

/-- Python `min(xs)` on a nonempty list of floats, over exact rationals. -/
def pyMin (l : List ℚ) : ℚ := l.foldl min (l.headD 0)

/-- A persisted model artifact of train.py: the per-fold checkpoint
`model_(ticker)_fold_i.keras`, or the well-known best identifier
`model_(ticker)_best.keras`. -/
inductive SaveKey : Type where
  | fold : ℕ → SaveKey
  | best : SaveKey
deriving DecidableEq

/-- `if current_val_loss < best_val_loss:` with `best_val_loss` started at
infinity, modelled by `none`; the tracked pair is (best loss, fold index of
the best model). -/
def updateBest (best : Option (ℚ × ℕ)) (cur : ℚ) (i : ℕ) : Option (ℚ × ℕ) :=
  match best with
  | none => some (cur, i)
  | some (bl, bm) => if cur < bl then some (cur, i) else some (bl, bm)

/-- The fold loop of train.py `main`.  Fold `i` is abstracted by its
validation-loss history (`history.history` at the monitored key); a trained
fold persists its checkpoint (key `fold i`, value the fold's model,
identified by its index) and updates the running best with the minimum of
its history.  `cancel i` is the run-controller check at the top of iteration
`i` (`worker.is_running` is false); it makes the loop return at once, flag
true.  Returns (persisted artifacts in order, running best, cancelled). -/
def runFolds (cancel : ℕ → Bool) :
    ℕ → Option (ℚ × ℕ) → List (List ℚ) →
      List (SaveKey × ℕ) × Option (ℚ × ℕ) × Bool
  | _, best, [] => ([], best, false)
  | i, best, h :: rest =>
    if cancel i then ([], best, true)
    else
      let out := runFolds cancel (i + 1) (updateBest best (pyMin h) i) rest
      ((SaveKey.fold i, i) :: out.1, out.2)

/-- train.py `main` after windowing and splitting: the artifacts persisted
on disk, in order.  On cancellation the loop returns early (a plain
`return`, no error) and the trailing `best_model.save` is skipped; when the
loop completes, the tracked best model is saved under the best identifier.
Metric logging touches no artifact and is omitted. -/
def train_main (cancel : ℕ → Bool) (folds : List (List ℚ)) :
    List (SaveKey × ℕ) :=
  let out := runFolds cancel 0 none folds
  if out.2.2 then out.1
  else
    match out.2.1 with
    | some (_, bm) => out.1 ++ [(SaveKey.best, bm)]
    | none => out.1

/-- C3 counterexample: cancelling before fold 1 of two folds ends the run
with only fold 0's checkpoint on disk - nothing is persisted under the best
identifier, although fold 0 completed and the same run without cancellation
would have promoted fold 0's model as best. -/
theorem train_cancel_counterexample :
    train_main (fun i => decide (1 ≤ i)) [[1], [2]] = [(SaveKey.fold 0, 0)] ∧
    SaveKey.best ∉ (train_main (fun i => decide (1 ≤ i)) [[1], [2]]).map Prod.fst ∧
    train_main (fun _ => false) [[1], [2]] =
      [(SaveKey.fold 0, 0), (SaveKey.fold 1, 1), (SaveKey.best, 0)] := by
  have h1 : train_main (fun i => decide (1 ≤ i)) [[1], [2]] =
      [(SaveKey.fold 0, 0)] := by
    simp [train_main, runFolds, updateBest, pyMin]
  have h2 : train_main (fun _ => false) [[1], [2]] =
      [(SaveKey.fold 0, 0), (SaveKey.fold 1, 1), (SaveKey.best, 0)] := by
    have : ¬ ((2 : ℚ) < 1) := by norm_num
    simp [train_main, runFolds, updateBest, pyMin, this]
  exact ⟨h1, by rw [h1]; simp, h2⟩

lemma runFolds_cancelled (cancel : ℕ → Bool) :
    ∀ (folds : List (List ℚ)) (i : ℕ) (best : Option (ℚ × ℕ)) (k : ℕ),
      k < folds.length → cancel (i + k) = true →
      (∀ j, j < k → cancel (i + j) = false) →
      (runFolds cancel i best folds).1 =
        (List.range' i k).map (fun j => (SaveKey.fold j, j)) ∧
      (runFolds cancel i best folds).2.2 = true := by
  intro folds
  induction folds with
  | nil => intro i best k hk; exact absurd hk (by simp)
  | cons h rest ih =>
    intro i best k hk hck hprev
    cases k with
    | zero =>
      have hci : cancel i = true := by simpa using hck
      simp [runFolds, hci]
    | succ k' =>
      have hci : cancel i = false := by simpa using hprev 0 (Nat.succ_pos k')
      have hk' : k' < rest.length := by simpa using hk
      have hck' : cancel (i + 1 + k') = true := by
        have : i + 1 + k' = i + (k' + 1) := by omega
        rw [this]; exact hck
      have hprev' : ∀ j, j < k' → cancel (i + 1 + j) = false := by
        intro j hj
        have : i + 1 + j = i + (j + 1) := by omega
        rw [this]; exact hprev (j + 1) (by omega)
      obtain ⟨ihs, ihc⟩ := ih (i + 1) (updateBest best (pyMin h) i) k' hk' hck' hprev'
      constructor
      · simp only [runFolds, hci, Bool.false_eq_true, if_neg, ite_false]
        rw [List.range'_succ]
        simp only [List.map_cons]
        exact congrArg _ ihs
      · simp only [runFolds, hci, Bool.false_eq_true, if_neg, ite_false]
        exact ihc

/-- C3 (amended): when the run-controller first signals stop before fold
`k` (with `k` within the fold sequence), `train_main` returns cleanly with
exactly the checkpoints of the earlier completed folds `0 .. k-1` persisted;
nothing is saved under the best identifier - the in-memory best of the
completed folds is not promoted. -/
theorem train_cancel_spec (cancel : ℕ → Bool) (folds : List (List ℚ)) (k : ℕ)
    (hk : k < folds.length) (hck : cancel k = true)
    (hprev : ∀ j, j < k → cancel j = false) :
    train_main cancel folds =
      (List.range k).map (fun i => (SaveKey.fold i, i)) ∧
    SaveKey.best ∉ (train_main cancel folds).map Prod.fst := by
  obtain ⟨h1, h2⟩ := runFolds_cancelled cancel folds 0 none k hk
    (by simpa using hck) (by simpa using hprev)
  have hmain : train_main cancel folds =
      (List.range k).map (fun i => (SaveKey.fold i, i)) := by
    unfold train_main
    rw [if_pos h2, h1, List.range_eq_range']
  refine ⟨hmain, ?_⟩
  rw [hmain]
  simp only [List.map_map, List.mem_map, Function.comp]
  rintro ⟨j, -, hkey⟩
  exact SaveKey.noConfusion hkey

/-- Witness for C3 (amended): three folds, stop first signalled before
fold 1; only fold 0's checkpoint is persisted and no best key appears. -/
theorem train_cancel_spec_witness :
    train_main (fun i => decide (i = 1)) [[1], [2], [3]] =
      (List.range 1).map (fun i => (SaveKey.fold i, i)) ∧
    SaveKey.best ∉
      (train_main (fun i => decide (i = 1)) [[1], [2], [3]]).map Prod.fst :=
  train_cancel_spec (fun i => decide (i = 1)) [[1], [2], [3]] 1
    (by norm_num) (by norm_num)
    (by intro j hj
        have h0 : j = 0 := by omega
        subst h0
        rfl)

/-- The best-tracking accumulation of the completed fold loop, on its own:
what `(best_val_loss, best_model)` hold after all folds ran. -/
def foldBest : ℕ → Option (ℚ × ℕ) → List (List ℚ) → Option (ℚ × ℕ)
  | _, best, [] => best
  | i, best, h :: rest => foldBest (i + 1) (updateBest best (pyMin h) i) rest

/-- The fold index whose model ends up tracked as best (0 on no folds). -/
def bestFoldIdx (folds : List (List ℚ)) : ℕ :=
  ((foldBest 0 none folds).getD (0, 0)).2

lemma runFolds_complete (cancel : ℕ → Bool) (hc : ∀ i, cancel i = false) :
    ∀ (folds : List (List ℚ)) (i : ℕ) (best : Option (ℚ × ℕ)),
      runFolds cancel i best folds =
        ((List.range' i folds.length).map (fun j => (SaveKey.fold j, j)),
         foldBest i best folds, false) := by
  intro folds
  induction folds with
  | nil => intro i best; simp [runFolds, foldBest]
  | cons h rest ih =>
    intro i best
    simp only [runFolds, hc i, Bool.false_eq_true, if_neg, ite_false,
      ih (i + 1) (updateBest best (pyMin h) i), foldBest, List.length_cons,
      List.range'_succ, List.map_cons]

lemma foldBest_some_spec :
    ∀ (folds : List (List ℚ)) (i : ℕ) (bl : ℚ) (bm : ℕ),
      (foldBest i (some (bl, bm)) folds = some (bl, bm) ∧
        ∀ j, j < folds.length → bl ≤ pyMin (folds.getD j [])) ∨
      (∃ bi, bi < folds.length ∧
        foldBest i (some (bl, bm)) folds =
          some (pyMin (folds.getD bi []), i + bi) ∧
        pyMin (folds.getD bi []) < bl ∧
        (∀ j, j < folds.length →
          pyMin (folds.getD bi []) ≤ pyMin (folds.getD j [])) ∧
        (∀ j, j < bi →
          pyMin (folds.getD bi []) < pyMin (folds.getD j []))) := by
  intro folds
  induction folds with
  | nil =>
    intro i bl bm
    exact Or.inl ⟨rfl, fun j hj => absurd hj (by simp)⟩
  | cons h rest ih =>
    intro i bl bm
    by_cases hlt : pyMin h < bl
    · have hstep : foldBest i (some (bl, bm)) (h :: rest) =
          foldBest (i + 1) (some (pyMin h, i)) rest := by
        simp [foldBest, updateBest, hlt]
      rcases ih (i + 1) (pyMin h) i with ⟨heq, hall⟩ | ⟨bi, hbi, heq, hblt, hall, htie⟩
      · refine Or.inr ⟨0, by simp, ?_, ?_, ?_, ?_⟩
        · rw [hstep, heq]; simp
        · simpa using hlt
        · intro j hj
          cases j with
          | zero => simp
          | succ j' =>
            simp only [List.getD_cons_zero, List.getD_cons_succ]
            exact hall j' (by simpa using hj)
        · intro j hj; exact absurd hj (by omega)
      · refine Or.inr ⟨bi + 1, by simpa using hbi, ?_, ?_, ?_, ?_⟩
        · rw [hstep, heq]
          simp only [List.getD_cons_succ]
          have : i + 1 + bi = i + (bi + 1) := by omega
          rw [this]
        · simp only [List.getD_cons_succ]
          exact lt_trans hblt hlt
        · intro j hj
          cases j with
          | zero =>
            simp only [List.getD_cons_zero, List.getD_cons_succ]
            exact le_of_lt hblt
          | succ j' =>
            simp only [List.getD_cons_succ]
            exact hall j' (by simpa using hj)
        · intro j hj
          cases j with
          | zero =>
            simp only [List.getD_cons_zero, List.getD_cons_succ]
            exact hblt
          | succ j' =>
            simp only [List.getD_cons_succ]
            exact htie j' (by omega)
    · have hstep : foldBest i (some (bl, bm)) (h :: rest) =
          foldBest (i + 1) (some (bl, bm)) rest := by
        simp [foldBest, updateBest, hlt]
      have hge : bl ≤ pyMin h := le_of_not_lt hlt
      rcases ih (i + 1) bl bm with ⟨heq, hall⟩ | ⟨bi, hbi, heq, hblt, hall, htie⟩
      · refine Or.inl ⟨by rw [hstep, heq], ?_⟩
        intro j hj
        cases j with
        | zero => simpa using hge
        | succ j' =>
          simp only [List.getD_cons_succ]
          exact hall j' (by simpa using hj)
      · refine Or.inr ⟨bi + 1, by simpa using hbi, ?_, ?_, ?_, ?_⟩
        · rw [hstep, heq]
          simp only [List.getD_cons_succ]
          have : i + 1 + bi = i + (bi + 1) := by omega
          rw [this]
        · simp only [List.getD_cons_succ]
          exact hblt
        · intro j hj
          cases j with
          | zero =>
            simp only [List.getD_cons_zero, List.getD_cons_succ]
            exact le_of_lt (lt_of_lt_of_le hblt hge)
          | succ j' =>
            simp only [List.getD_cons_succ]
            exact hall j' (by simpa using hj)
        · intro j hj
          cases j with
          | zero =>
            simp only [List.getD_cons_zero, List.getD_cons_succ]
            exact lt_of_lt_of_le hblt hge
          | succ j' =>
            simp only [List.getD_cons_succ]
            exact htie j' (by omega)

lemma foldBest_none_spec (folds : List (List ℚ)) (hne : folds ≠ []) :
    ∃ bi, bi < folds.length ∧
      foldBest 0 none folds = some (pyMin (folds.getD bi []), bi) ∧
      (∀ j, j < folds.length →
        pyMin (folds.getD bi []) ≤ pyMin (folds.getD j [])) ∧
      (∀ j, j < bi →
        pyMin (folds.getD bi []) < pyMin (folds.getD j [])) := by
  cases folds with
  | nil => exact absurd rfl hne
  | cons h rest =>
    have hstep : foldBest 0 none (h :: rest) =
        foldBest 1 (some (pyMin h, 0)) rest := by
      simp [foldBest, updateBest]
    rcases foldBest_some_spec rest 1 (pyMin h) 0 with
      ⟨heq, hall⟩ | ⟨bi, hbi, heq, hblt, hall, htie⟩
    · refine ⟨0, by simp, by rw [hstep, heq]; simp, ?_, ?_⟩
      · intro j hj
        cases j with
        | zero => simp
        | succ j' =>
          simp only [List.getD_cons_zero, List.getD_cons_succ]
          exact hall j' (by simpa using hj)
      · intro j hj; exact absurd hj (by omega)
    · refine ⟨bi + 1, by simpa using hbi, ?_, ?_, ?_⟩
      · rw [hstep, heq]
        simp only [List.getD_cons_succ]
        have : 1 + bi = bi + 1 := by omega
        rw [this]
      · intro j hj
        cases j with
        | zero =>
          simp only [List.getD_cons_zero, List.getD_cons_succ]
          exact le_of_lt hblt
        | succ j' =>
          simp only [List.getD_cons_succ]
          exact hall j' (by simpa using hj)
      · intro j hj
        cases j with
        | zero =>
          simp only [List.getD_cons_zero, List.getD_cons_succ]
          exact hblt
        | succ j' =>
          simp only [List.getD_cons_succ]
          exact htie j' (by omega)

/-- C4: when every fold completes (the controller never cancels), the
artifact persisted under the best identifier is the model of a fold whose
minimum validation loss over its history is at most that of every other
completed fold, and any fold before it has a strictly larger minimum
(ties go to the earliest fold). -/
theorem train_best_selection (cancel : ℕ → Bool) (folds : List (List ℚ))
    (hc : ∀ i, cancel i = false) (hne : folds ≠ []) :
    train_main cancel folds =
      ((List.range folds.length).map (fun i => (SaveKey.fold i, i)))
        ++ [(SaveKey.best, bestFoldIdx folds)] ∧
    bestFoldIdx folds < folds.length ∧
    (∀ j, j < folds.length →
      pyMin (folds.getD (bestFoldIdx folds) []) ≤ pyMin (folds.getD j [])) ∧
    (∀ j, j < bestFoldIdx folds →
      pyMin (folds.getD (bestFoldIdx folds) []) < pyMin (folds.getD j [])) := by
  obtain ⟨bi, hbi, heq, hall, htie⟩ := foldBest_none_spec folds hne
  have hidx : bestFoldIdx folds = bi := by
    unfold bestFoldIdx
    rw [heq]
    rfl
  have hmain : train_main cancel folds =
      ((List.range folds.length).map (fun i => (SaveKey.fold i, i)))
        ++ [(SaveKey.best, bestFoldIdx folds)] := by
    unfold train_main
    rw [runFolds_complete cancel hc folds 0 none, List.range_eq_range', heq, hidx]
    simp
  exact ⟨hmain, hidx ▸ hbi, hidx ▸ hall, hidx ▸ htie⟩

/-- Witness for C4: three folds with loss histories [2], [1], [1]; fold 1 is
promoted as best (it ties fold 2 and strictly beats fold 0). -/
theorem train_best_selection_witness :
    train_main (fun _ => false) [[2], [1], [1]] =
      ((List.range 3).map (fun i => (SaveKey.fold i, i)))
        ++ [(SaveKey.best, bestFoldIdx [[2], [1], [1]])] ∧
    bestFoldIdx [[2], [1], [1]] < 3 ∧
    (∀ j, j < 3 →
      pyMin (([[2], [1], [1]] : List (List ℚ)).getD (bestFoldIdx [[2], [1], [1]]) []) ≤
        pyMin (([[2], [1], [1]] : List (List ℚ)).getD j [])) ∧
    (∀ j, j < bestFoldIdx [[2], [1], [1]] →
      pyMin (([[2], [1], [1]] : List (List ℚ)).getD (bestFoldIdx [[2], [1], [1]]) []) <
        pyMin (([[2], [1], [1]] : List (List ℚ)).getD j [])) :=
  train_best_selection (fun _ => false) [[2], [1], [1]] (fun _ => rfl) (by simp)

/-- The split selection of train.py `main`: with `n_folds > 1` the sklearn
`TimeSeriesSplit` (an external collaborator, passed in as `tscv`) produces
the splits; otherwise one split is built with
`split_index = int(len(x) * 0.8)` - the float literal 0.8 is the rational
4/5 and `int` truncates, so the index is `N * 4 / 5` in natural division -
and `splits = [(np.arange(split_index), np.arange(split_index, len(x)))]`. -/
def buildSplits (tscv : ℕ → List (List ℕ × List ℕ)) (nFolds nWindows : ℕ) :
    List (List ℕ × List ℕ) :=
  if 1 < nFolds then tscv nWindows
  else
    [(List.range (nWindows * 4 / 5),
      List.range' (nWindows * 4 / 5) (nWindows - nWindows * 4 / 5))]

/-- C7: with `n_folds ≤ 1` exactly one split is produced; its train range is
the first `⌊0.8 N⌋` window indices and its validation range the remaining
indices, both in original order, and together they cover `0 .. N - 1`. -/
theorem single_split_spec (tscv : ℕ → List (List ℕ × List ℕ))
    (nFolds N : ℕ) (h : nFolds ≤ 1) :
    buildSplits tscv nFolds N =
      [(List.range (N * 4 / 5), List.range' (N * 4 / 5) (N - N * 4 / 5))] ∧
    (buildSplits tscv nFolds N).length = 1 ∧
    (List.range (N * 4 / 5)).length = N * 4 / 5 ∧
    (List.range' (N * 4 / 5) (N - N * 4 / 5)).length = N - N * 4 / 5 ∧
    List.range (N * 4 / 5) ++ List.range' (N * 4 / 5) (N - N * 4 / 5) =
      List.range N := by
  have hnot : ¬ 1 < nFolds := by omega
  have hle : N * 4 / 5 ≤ N := by
    calc N * 4 / 5 ≤ N * 5 / 5 := Nat.div_le_div_right (by omega)
    _ = N := Nat.mul_div_cancel N (by norm_num)
  refine ⟨by simp [buildSplits, hnot], by simp [buildSplits, hnot],
    by simp, by simp, ?_⟩
  rw [List.range_eq_range', List.range_eq_range']
  have happ := List.range'_append 0 (N * 4 / 5) (N - N * 4 / 5) 1
  simp only [Nat.zero_add, Nat.one_mul] at happ
  rw [happ]
  have : N - N * 4 / 5 + N * 4 / 5 = N := by omega
  rw [this]

/-- Witness for C7 at the spec scenario: `n_folds = 1` and 100 windows give
train indices 0-79 and validation indices 80-99. -/
theorem single_split_spec_witness :
    buildSplits (fun _ => []) 1 100 =
      [(List.range 80, List.range' 80 20)] ∧
    (buildSplits (fun _ => []) 1 100).length = 1 ∧
    (List.range 80).length = 80 ∧
    (List.range' 80 20).length = 20 ∧
    List.range 80 ++ List.range' 80 20 = List.range 100 :=
  single_split_spec (fun _ => []) 1 100 (le_refl 1)

/-- `MinMaxScaler.inverse_transform` on one full-width row: each column is
inverted with its own fitted (data min, data max) pair. -/
def inverse_transform_row (params : List (ℚ × ℚ)) (row : List ℚ) : List ℚ :=
  List.zipWith (fun pr x => mmInverse pr.1 pr.2 x) params row

/-- `ModelPredictor.inverse_transform_predictions` from src/predict.py: each
scaled prediction is zero-padded into a full-width row
(`np.hstack([np.zeros((m, len(cols) - 1)), predictions])` puts the
prediction in the last slot), the rows are inverse-transformed with the
feature scaler, and the column at the index of Close in the loaded
dataframe's column list is returned. -/
def inverse_transform_predictions (params : List (ℚ × ℚ))
    (dfCols : List String) (preds : List ℚ) : List ℚ :=
  (preds.map fun p =>
      inverse_transform_row params
        (List.replicate (dfCols.length - 1) 0 ++ [p])).map
    fun r => r.getD (dfCols.indexOf "Close") 0

lemma getD_zipWith {α β γ : Type} (f : α → β → γ) (da : α) (db : β) (dc : γ) :
    ∀ (l₁ : List α) (l₂ : List β) (i : ℕ), i < l₁.length → i < l₂.length →
      (List.zipWith f l₁ l₂).getD i dc = f (l₁.getD i da) (l₂.getD i db) := by
  intro l₁
  induction l₁ with
  | nil => intro l₂ i h1 _; exact absurd h1 (by simp)
  | cons a t ih =>
    intro l₂ i h1 h2
    cases l₂ with
    | nil => exact absurd h2 (by simp)
    | cons b t₂ =>
      cases i with
      | zero => simp
      | succ i' =>
        simp only [List.zipWith_cons_cons, List.getD_cons_succ]
        exact ih t₂ i' (by simpa using h1) (by simpa using h2)

lemma getD_replicate_zero : ∀ (n i : ℕ), (List.replicate n (0 : ℚ)).getD i 0 = 0 := by
  intro n
  induction n with
  | zero => intro i; simp
  | succ n' ih =>
    intro i
    cases i with
    | zero => simp [List.replicate]
    | succ i' => simp only [List.replicate, List.getD_cons_succ]; exact ih i'

lemma getD_padRow (w : ℕ) (p : ℚ) (i : ℕ) (hi : i < w) :
    (List.replicate (w - 1) (0 : ℚ) ++ [p]).getD i 0 =
      if i + 1 = w then p else 0 := by
  by_cases h : i + 1 = w
  · rw [if_pos h]
    rw [List.getD_append_right _ _ _ _ (by simp; omega)]
    simp only [List.length_replicate]
    have : i - (w - 1) = 0 := by omega
    rw [this, List.getD_cons_zero]
  · rw [if_neg h]
    rw [List.getD_append _ _ _ _ (by simp; omega)]
    exact getD_replicate_zero _ _

/-- C10: the predictor builds full-width rows with the scaled prediction in
the last slot and zeros elsewhere, inverse-transforms them, and reads off
the Close column: when Close is the last column of the loaded dataframe the
result is the Close-unit inverse of each prediction; otherwise every
returned value is the inverse of 0 at Close's position, which is the fitted
Close minimum. -/
theorem inverse_transform_predictions_spec (params : List (ℚ × ℚ))
    (dfCols : List String) (preds : List ℚ)
    (hmem : "Close" ∈ dfCols)
    (hlen : params.length = dfCols.length)
    (hmm : (params.getD (dfCols.indexOf "Close") (0, 0)).1 <
        (params.getD (dfCols.indexOf "Close") (0, 0)).2) :
    (dfCols.indexOf "Close" + 1 = dfCols.length →
      inverse_transform_predictions params dfCols preds =
        preds.map fun p =>
          mmInverse (params.getD (dfCols.indexOf "Close") (0, 0)).1
            (params.getD (dfCols.indexOf "Close") (0, 0)).2 p) ∧
    (dfCols.indexOf "Close" + 1 ≠ dfCols.length →
      inverse_transform_predictions params dfCols preds =
        preds.map fun _ =>
          mmInverse (params.getD (dfCols.indexOf "Close") (0, 0)).1
            (params.getD (dfCols.indexOf "Close") (0, 0)).2 0) ∧
    mmInverse (params.getD (dfCols.indexOf "Close") (0, 0)).1
        (params.getD (dfCols.indexOf "Close") (0, 0)).2 0 =
      (params.getD (dfCols.indexOf "Close") (0, 0)).1 := by
  have hci : dfCols.indexOf "Close" < dfCols.length :=
    List.indexOf_lt_length.mpr hmem
  have hw : 1 ≤ dfCols.length := by omega
  have hrowlen : ∀ p : ℚ,
      (List.replicate (dfCols.length - 1) (0 : ℚ) ++ [p]).length =
        dfCols.length := by
    intro p; simp; omega
  have hkey : ∀ p : ℚ,
      (inverse_transform_row params
          (List.replicate (dfCols.length - 1) 0 ++ [p])).getD
        (dfCols.indexOf "Close") 0 =
        mmInverse (params.getD (dfCols.indexOf "Close") (0, 0)).1
          (params.getD (dfCols.indexOf "Close") (0, 0)).2
          (if dfCols.indexOf "Close" + 1 = dfCols.length then p else 0) := by
    intro p
    unfold inverse_transform_row
    rw [getD_zipWith (fun pr x => mmInverse pr.1 pr.2 x) (0, 0) 0 0
      params _ _ (by omega) (by rw [hrowlen p]; exact hci)]
    rw [getD_padRow _ _ _ hci]
  have hmap : ∀ target : ℚ → ℚ,
      (∀ p : ℚ, (inverse_transform_row params
          (List.replicate (dfCols.length - 1) 0 ++ [p])).getD
            (dfCols.indexOf "Close") 0 = target p) →
      inverse_transform_predictions params dfCols preds = preds.map target := by
    intro target htgt
    unfold inverse_transform_predictions
    rw [List.map_map]
    exact List.map_congr_left fun p _ => htgt p
  have hzero : mmInverse (params.getD (dfCols.indexOf "Close") (0, 0)).1
      (params.getD (dfCols.indexOf "Close") (0, 0)).2 0 =
      (params.getD (dfCols.indexOf "Close") (0, 0)).1 := by
    set pc := params.getD (dfCols.indexOf "Close") (0, 0) with hpc
    have hdne : pc.2 - pc.1 ≠ 0 := sub_ne_zero.mpr (ne_of_gt hmm)
    simp only [mmInverse, mmMin, mmScale, if_neg hdne]
    field_simp
  refine ⟨?_, ?_, hzero⟩
  · intro hlast
    exact hmap _ fun p => by rw [hkey p, if_pos hlast]
  · intro hlast
    exact hmap _ fun p => by rw [hkey p, if_neg hlast]

/-- Witness for C10: columns [Open, Close] with fitted ranges (0, 1) and
(10, 20); Close is the last column, so predictions 1/2 and 1 come back as
their Close-unit inverses, and the inverse of 0 is the fitted minimum 10. -/
theorem inverse_transform_predictions_witness :
    inverse_transform_predictions [(0, 1), (10, 20)] ["Open", "Close"]
        [1 / 2, 1] =
      [1 / 2, 1].map (fun p => mmInverse 10 20 p) ∧
    mmInverse 10 20 0 = 10 :=
  ⟨(inverse_transform_predictions_spec [(0, 1), (10, 20)] ["Open", "Close"]
      [1 / 2, 1] (by decide) rfl (by show (10 : ℚ) < 20; norm_num)).1 rfl,
   (inverse_transform_predictions_spec [(0, 1), (10, 20)] ["Open", "Close"]
      [1 / 2, 1] (by decide) rfl (by show (10 : ℚ) < 20; norm_num)).2.2⟩

/-- Python `max(xs)` on a nonempty list, over exact rationals. -/
def pyMax (l : List ℚ) : ℚ := l.foldl max (l.headD 0)

/-- `df.columns`: the column names of a frame, in order.  A dataframe is an
ordered list of named numeric columns. -/
def frameCols (df : List (String × List ℚ)) : List String := df.map Prod.fst

/-- `df[c]`: the values of the named column (first match, else empty). -/
def getCol (df : List (String × List ℚ)) (c : String) : List ℚ :=
  ((df.find? fun p => p.1 == c).map Prod.snd).getD []

/-- `normalize_features` from data_preparation.py: with `normalize` false the
frame is returned untouched and no scaler is fitted; otherwise the named
columns absent from the frame are collected and, if there are any, a
`ValueError` is raised; else a `MinMaxScaler` is fit on the named columns
(per-column data min and max, as sklearn fits each column separately) and
those columns are replaced in place by their transforms. -/
def normalize_features (df : List (String × List ℚ)) (columns : List String)
    (normalize : Bool) :
    Except String (List (String × List ℚ) × Option (List (String × ℚ × ℚ))) :=
  if !normalize then .ok (df, none)
  else
    let missing := columns.filter fun c => !((frameCols df).contains c)
    if missing ≠ [] then .error "Columns not found in DataFrame"
    else
      .ok
        (df.map fun p =>
          if columns.contains p.1 then
            (p.1, p.2.map (mmTransform (pyMin p.2) (pyMax p.2)))
          else p,
         some (columns.map fun c => (c, pyMin (getCol df c), pyMax (getCol df c))))

/-- The arithmetic mean of a list of rationals. -/
def meanQ (l : List ℚ) : ℚ := l.sum / l.length

/-- pandas `Series.rolling(window := n).std()` applied to one full window:
sample standard deviation (ddof 1); its square root is a float operation
with no exact rational counterpart and is the ambient `sqrtQ`. -/
def stdQ (sqrtQ : ℚ → ℚ) (l : List ℚ) : ℚ :=
  sqrtQ ((l.map fun x => (x - meanQ l) ^ 2).sum / ((l.length : ℚ) - 1))

/-- pandas `Series.rolling(n)` with an aggregate `g`: NaN (here `none`)
until a full window of `n` defined entries is available, as with pandas'
default `min_periods = n`. -/
def rollingApplyOpt (n : ℕ) (g : List ℚ → ℚ) (l : List (Option ℚ)) :
    List (Option ℚ) :=
  (List.range l.length).map fun i =>
    if i + 1 < n then none
    else
      match ((l.take (i + 1)).drop (i + 1 - n)).mapM id with
      | some w => some (g w)
      | none => none

/-- pandas `Series.pct_change()`: NaN first, then consecutive ratios. -/
def pctChange (l : List ℚ) : List (Option ℚ) :=
  if l = [] then []
  else none :: (List.zipWith (fun a b => (a - b) / b) l.tail l).map some

/-- pandas NaN-propagating binary arithmetic on two series. -/
def zipWithOpt (f : ℚ → ℚ → ℚ) :
    List (Option ℚ) → List (Option ℚ) → List (Option ℚ) :=
  List.zipWith fun a b =>
    match a, b with
    | some x, some y => some (f x y)
    | _, _ => none

/-- pandas `Series.ewm(span := s, min_periods := m).mean()` with the default
adjusted weights: at index `i` the weighted mean of all entries up to `i`
with weights `(1 - 2 / (s + 1)) ^ j` on the entry `j` steps back; NaN for
the first `m - 1` rows. -/
def ewmMean (span minPeriods : ℕ) (l : List ℚ) : List (Option ℚ) :=
  let alphaC : ℚ := 1 - 2 / ((span : ℚ) + 1)
  (List.range l.length).map fun i =>
    if i + 1 < minPeriods then none
    else
      some ((((List.range (i + 1)).map fun j => alphaC ^ j * l.getD (i - j) 0).sum) /
        ((List.range (i + 1)).map fun j => alphaC ^ j).sum)

/-- `calculate_macd` from data_preparation.py: EMA(span 12) minus
EMA(span 26), both with a 26-period minimum. -/
def calculate_macd (prices : List ℚ) (nFast : ℕ := 12) (nSlow : ℕ := 26) :
    List (Option ℚ) :=
  zipWithOpt (· - ·) (ewmMean nFast nSlow prices) (ewmMean nSlow nSlow prices)

/-- `calculate_technical_indicators` from data_preparation.py: raises a
`ValueError` unless every required column (just Close) is present, else
appends the indicator columns to the frame; entries that pandas leaves NaN
during warm-up are `none`. -/
def calculate_technical_indicators (sqrtQ : ℚ → ℚ)
    (df : List (String × List ℚ)) :
    Except String (List (String × List (Option ℚ))) :=
  if !(["Close"].all fun c => (frameCols df).contains c) then
    .error "DataFrame must contain the required columns"
  else
    let close := getCol df "Close"
    let closeOpt := close.map some
    let rets := pctChange close
    let vol := rollingApplyOpt 50 (stdQ sqrtQ) rets
    let ma20 := rollingApplyOpt 20 meanQ closeOpt
    .ok
      ((df.map fun p => (p.1, p.2.map some)) ++
        [("MA50", rollingApplyOpt 50 meanQ closeOpt),
         ("MA200", rollingApplyOpt 200 meanQ closeOpt),
         ("Returns", rets),
         ("Volatility", vol),
         ("MA20", ma20),
         ("Upper", zipWithOpt (fun m v => m + 2 * v) ma20 vol),
         ("Lower", zipWithOpt (fun m v => m - 2 * v) ma20 vol),
         ("RSI", (calculate_rsi close 14).map some),
         ("MACD", calculate_macd close 12 26)])

/-- Whether an `Except` value is the error case. -/
def exceptIsError {ε α : Type} : Except ε α → Bool
  | .error _ => true
  | .ok _ => false

/-- C9: fitting the scaler over a named column set errors exactly when some
named column is absent from the frame, and the indicator computation errors
exactly when the required Close column is absent. -/
theorem errors_iff_missing_column (df : List (String × List ℚ))
    (columns : List String) (sqrtQ : ℚ → ℚ) :
    (exceptIsError (normalize_features df columns true) = true ↔
      ∃ c ∈ columns, c ∉ frameCols df) ∧
    (exceptIsError (calculate_technical_indicators sqrtQ df) = true ↔
      "Close" ∉ frameCols df) := by
  have key : ((columns.filter fun c => !((frameCols df).contains c)) = []) ↔
      ∀ c ∈ columns, c ∈ frameCols df := by
    rw [List.filter_eq_nil_iff]
    simp [List.elem_iff]
  constructor
  · unfold normalize_features
    by_cases hm : (columns.filter fun c => !((frameCols df).contains c)) = []
    · rw [if_neg (by simp), if_neg (by simpa using hm)]
      simp only [exceptIsError, Bool.false_eq_true, false_iff]
      rintro ⟨c, hc, habs⟩
      exact habs (key.mp hm c hc)
    · rw [if_neg (by simp), if_pos (by simpa using hm)]
      simp only [exceptIsError, true_iff]
      have hnall := mt key.mpr hm
      push_neg at hnall
      obtain ⟨c, hc, hnc⟩ := hnall
      exact ⟨c, hc, hnc⟩
  · unfold calculate_technical_indicators
    by_cases hc : "Close" ∈ frameCols df
    · rw [if_neg (by simp [List.elem_iff, hc])]
      simp [exceptIsError, hc]
    · rw [if_pos (by simp [List.elem_iff, hc])]
      simp [exceptIsError, hc]

end BtcPred
